import Mathlib

/-!
Shallow embedding of the console inventory manager (C sources:
`modification.c`, `file.c`, `display.c`, `product.c`/`product.h`).

Modelling conventions:
* C `char` arrays holding text are `List Char`;
* C `int` is `Int` (overflow is irrelevant at the program's scale);
* C `float` is `ℚ`, with `%.2f` formatting modelled as round-to-nearest
  at two decimal places;
* the store file and the log file are modelled as lists of lines
  (`List (List Char)`), `none` standing for a file that does not exist;
  every line the program itself writes is shorter than the 256-byte
  `fgets` buffers, so the line-list view coincides with the C byte stream;
* interactive reads (`scanf`) become explicit parameters;
* functions that print a message and return 0/1 return the mutated
  inventory together with a status value.
-/

set_option autoImplicit false

namespace Stock

/-- `#define Max 1000` from `product.h`: the inventory capacity. -/
def Max : Nat := 1000

/-- The C `Prod` struct from `product.h`:
`char name[50]; char id[10]; char category[30]; int quantity; float price;
char date[11]; int min_stock;`. -/
structure Prod where
  name : List Char
  id : List Char
  category : List Char
  quantity : Int
  price : ℚ
  date : List Char
  min_stock : Int
deriving DecidableEq, Inhabited

/-- The C `Invent` struct: the array of products together with
`product_count` becomes the list of live products. -/
structure Invent where
  products : List Prod
deriving DecidableEq, Inhabited

/-- `inv->product_count`. -/
def Invent.product_count (inv : Invent) : Nat := inv.products.length

/-- `init_invent` from `product.c`: `inv->product_count = 0`. -/
def init_invent : Invent := ⟨[]⟩

/-- `is_low_stock` from `product.c`: `p->quantity <= p->min_stock`. -/
def is_low_stock (p : Prod) : Bool := p.quantity ≤ p.min_stock

/-- The loop of `search_product_by_id`: scan from index `i`, return the first
index whose id matches, `-1` when none does. -/
def searchGo (id : List Char) : List Prod → Nat → Int
  | [], _ => -1
  | p :: ps, i => if p.id = id then (i : Int) else searchGo id ps (i + 1)

/-- `search_product_by_id` from `modification.c`: linear scan with `strcmp`,
first match wins, `-1` when absent. -/
def search_product_by_id (inv : Invent) (id : List Char) : Int :=
  searchGo id inv.products 0

/-- Outcome of `add_product`, distinguishing the two failure messages the C
function prints before returning 0. -/
inductive AddResult where
  | capacityExceeded
  | duplicateId
  | added
deriving DecidableEq

/-- `add_product` from `modification.c`: reject when
`inv->product_count >= Max`, reject when `search_product_by_id` finds the id,
otherwise `inv->products[inv->product_count++] = p`. -/
def add_product (inv : Invent) (p : Prod) : Invent × AddResult :=
  if Max ≤ inv.products.length then (inv, AddResult.capacityExceeded)
  else if search_product_by_id inv p.id ≠ -1 then (inv, AddResult.duplicateId)
  else (⟨inv.products ++ [p]⟩, AddResult.added)

/-- The five interactive entries `modify_product` reads with `scanf`:
two strings and three numbers (a negative number means "keep current"). -/
structure ModifyInput where
  name : List Char
  category : List Char
  quantity : Int
  price : ℚ
  min_stock : Int

/-- The field-update block of `modify_product`: strings overwrite only when
non-empty (`strlen(buffer) > 0`), numbers only when non-negative
(`qty >= 0`, `price >= 0`, `threshold >= 0`). `id` and `date` are not
prompted for and keep their values. -/
def applyModify (original : Prod) (inp : ModifyInput) : Prod :=
  { original with
    name := if 0 < inp.name.length then inp.name else original.name
    category := if 0 < inp.category.length then inp.category else original.category
    quantity := if 0 ≤ inp.quantity then inp.quantity else original.quantity
    price := if 0 ≤ inp.price then inp.price else original.price
    min_stock := if 0 ≤ inp.min_stock then inp.min_stock else original.min_stock }

/-- `modify_product` from `modification.c`: locate the id, fail when absent,
otherwise overwrite `inv->products[index]` field by field from the prompts. -/
def modify_product (inv : Invent) (id : List Char) (inp : ModifyInput) :
    Invent × Bool :=
  let index := search_product_by_id inv id
  if index = -1 then (inv, false)
  else
    let original := inv.products.getD index.toNat default
    (⟨inv.products.set index.toNat (applyModify original inp)⟩, true)

/-- `delete_product` from `modification.c`: locate the id, fail when absent,
cancel unless the confirmation char is `y`/`Y`, otherwise shift every
record after `index` one slot left and decrement the count. -/
def delete_product (inv : Invent) (id : List Char) (confirm : Char) :
    Invent × Bool :=
  let index := search_product_by_id inv id
  if index = -1 then (inv, false)
  else if confirm ≠ 'y' ∧ confirm ≠ 'Y' then (inv, false)
  else (⟨inv.products.take index.toNat ++ inv.products.drop (index.toNat + 1)⟩, true)

/-! ### Decimal text: rendering (printf) and scanning (sscanf/atoi) -/

/-- The character of a decimal digit value. -/
def digitChar (d : Nat) : Char := Char.ofNat (48 + d)

/-- The numeric value of a decimal digit character. -/
def digitVal (c : Char) : Nat := c.toNat - 48

/-- Fuel-bounded decimal rendering, most-significant digit first; the fuel
argument only serves structural termination and `natChars` always supplies
enough of it. -/
def natCharsGo : Nat → Nat → List Char
  | 0, _ => []
  | fuel + 1, n =>
    if n < 10 then [digitChar n]
    else natCharsGo fuel (n / 10) ++ [digitChar (n % 10)]

/-- The decimal text `printf("%d", n)` produces for a non-negative value:
most-significant digit first, a single `0` for zero. -/
def natChars (n : Nat) : List Char := natCharsGo (n + 1) n

/-- The decimal text `printf("%d", z)` produces: a minus sign followed by
the magnitude when negative. -/
def intChars (z : Int) : List Char :=
  (if z < 0 then ['-'] else []) ++ natChars z.natAbs

/-- Exactly-two-digit rendering, for the cents of `%.2f` (argument `< 100`). -/
def pad2 (n : Nat) : List Char := [digitChar (n / 10), digitChar (n % 10)]

/-- `%02d`-style zero padding to width at least 2 (strftime fields). -/
def pad2Min (n : Nat) : List Char :=
  List.replicate (2 - (natChars n).length) '0' ++ natChars n

/-- `sprintf("%03d", n)` for non-negative `n`: zero-pad to width at least 3. -/
def pad3 (n : Nat) : List Char :=
  List.replicate (3 - (natChars n).length) '0' ++ natChars n

/-- The value of a most-significant-first digit string. -/
def charsToNat (cs : List Char) : Nat :=
  cs.foldl (fun acc c => 10 * acc + digitVal c) 0

/-- Round-to-two-decimals: the value `%.2f` formatting preserves. -/
def round2 (q : ℚ) : ℚ := ((round (q * 100) : ℤ) : ℚ) / 100

/-- The text `printf("%.2f", q)` produces: sign, integer part, `.`, two
cent digits, after rounding to the nearest hundredth. -/
def floatChars2 (q : ℚ) : List Char :=
  let n : ℤ := round (q * 100)
  (if n < 0 then ['-'] else []) ++ natChars (n.natAbs / 100) ++ '.' :: pad2 (n.natAbs % 100)

/-- One store line, from `save_inventory`'s
`fprintf(f, "%s,%s,%s,%d,%.2f,%d,%s\n", ...)` (without the newline, which
is the line terminator in the line-list file model). -/
def serialize_product (p : Prod) : List Char :=
  p.name ++ ',' :: (p.id ++ ',' :: (p.category ++ ',' ::
    (intChars p.quantity ++ ',' :: (floatChars2 p.price ++ ',' ::
      (intChars p.min_stock ++ ',' :: p.date)))))

/-- `save_inventory` from `file.c`: one line per product, in storage order,
overwriting the whole store. -/
def save_inventory (inv : Invent) : List (List Char) :=
  inv.products.map serialize_product

/-- The whitespace set `isspace` uses, which `%d`/`%f` conversions skip. -/
def isCSpace (c : Char) : Bool :=
  c = ' ' || c = '\t' || c = '\n' || c = '\x0b' || c = '\x0c' || c = '\r'

/-- An `sscanf` `%w[^stop]` conversion: take at most `w` leading characters
for which `stop` is false. Returns the taken characters and the rest. -/
def scanSet (stop : Char → Bool) : Nat → List Char → List Char × List Char
  | _, [] => ([], [])
  | 0, cs => ([], cs)
  | w + 1, c :: cs =>
    if stop c then ([], c :: cs)
    else
      let p := scanSet stop w cs
      (c :: p.1, p.2)

/-- Take the leading run of decimal digits. -/
def scanDigits : List Char → List Char × List Char
  | [] => ([], [])
  | c :: cs =>
    if c.isDigit then
      let p := scanDigits cs
      (c :: p.1, p.2)
    else ([], c :: cs)

/-- A literal (non-whitespace) character in an `sscanf` format: the next
input character must be exactly `c`. -/
def expectChar (c : Char) : List Char → Option (List Char)
  | [] => none
  | d :: r => if d = c then some r else none

/-- A `%w[^,]` field: fails (ending the `sscanf` match) when it takes
no character at all. -/
def scanField (w : Nat) (cs : List Char) : Option (List Char × List Char) :=
  let p := scanSet (fun c => c = ',') w cs
  if p.1 = [] then none else some p

/-- An `sscanf` `%d` conversion: skip whitespace, optional sign, at least
one digit. -/
def parseInt (cs0 : List Char) : Option (Int × List Char) :=
  let cs := cs0.dropWhile isCSpace
  let body := if cs.head? = some '-' ∨ cs.head? = some '+' then cs.tail else cs
  let p := scanDigits body
  if p.1 = [] then none
  else if cs.head? = some '-' then some (-(charsToNat p.1 : Int), p.2)
  else some ((charsToNat p.1 : Int), p.2)

/-- The unsigned part of a `%f` conversion, for the plain decimal forms
(digits, optional point, digits; at least one digit in total). -/
def parseUFloat (cs : List Char) : Option (ℚ × List Char) :=
  let p := scanDigits cs
  if p.2.head? = some '.' then
    let q := scanDigits p.2.tail
    if p.1 = [] ∧ q.1 = [] then none
    else some ((charsToNat p.1 : ℚ) + (charsToNat q.1 : ℚ) / (10 : ℚ) ^ q.1.length, q.2)
  else if p.1 = [] then none
  else some ((charsToNat p.1 : ℚ), p.2)

/-- An `sscanf` `%f` conversion (decimal forms): skip whitespace, optional
sign, unsigned decimal. -/
def parseFloat (cs0 : List Char) : Option (ℚ × List Char) :=
  let cs := cs0.dropWhile isCSpace
  let body := if cs.head? = some '-' ∨ cs.head? = some '+' then cs.tail else cs
  match parseUFloat body with
  | none => none
  | some v => some ((if cs.head? = some '-' then -v.1 else v.1), v.2)

/-- One iteration of `load_inventory`'s parse, the `sscanf` with format
`"%49[^,],%9[^,],%29[^,],%d,%f,%d,%10[^,\n]"`: `some` exactly when all
seven conversions succeed (the C call returns 7). Trailing characters
after the date field are ignored, as `sscanf` ignores them. -/
def parse_line (line : List Char) : Option Prod := do
  let (name, r1) ← scanField 49 line
  let r2 ← expectChar ',' r1
  let (id, r3) ← scanField 9 r2
  let r4 ← expectChar ',' r3
  let (category, r5) ← scanField 29 r4
  let r6 ← expectChar ',' r5
  let (quantity, r7) ← parseInt r6
  let r8 ← expectChar ',' r7
  let (price, r9) ← parseFloat r8
  let r10 ← expectChar ',' r9
  let (min_stock, r11) ← parseInt r10
  let r12 ← expectChar ',' r11
  let p13 := scanSet (fun c => c = ',' || c = '\n') 10 r12
  if p13.1 = [] then none
  else some { name := name, id := id, category := category, quantity := quantity,
              price := price, min_stock := min_stock, date := p13.1 }

/-- The `while (fgets(...) && count < Max)` loop of `load_inventory`:
append each line that parses, skip the rest, stop at capacity. -/
def loadLoop : List (List Char) → List Prod → List Prod
  | [], acc => acc
  | l :: ls, acc =>
    if acc.length < Max then
      match parse_line l with
      | some p => loadLoop ls (acc ++ [p])
      | none => loadLoop ls acc
    else acc

/-- `load_inventory` from `file.c`: when the store file does not exist
(`fopen` returns NULL) leave the inventory as it is and return 0;
otherwise reset the count and run the read loop, returning 1. -/
def load_inventory (store : Option (List (List Char))) (inv : Invent) :
    Invent × Bool :=
  match store with
  | none => (inv, false)
  | some lines => (⟨loadLoop lines []⟩, true)

/-- `atoi`: skip whitespace, optional sign, the leading digit run
(value 0 when there are no digits). -/
def atoi (cs0 : List Char) : Int :=
  let cs := cs0.dropWhile isCSpace
  let body := if cs.head? = some '-' ∨ cs.head? = some '+' then cs.tail else cs
  let v : Int := (charsToNat (scanDigits body).1 : Int)
  if cs.head? = some '-' then -v else v

/-- The loop body of `generate_unique_id`: when the id starts with `P`
(`strncmp(id, "P", 1) == 0`), fold in `atoi(id + 1)` when it beats
the maximum so far. -/
def maxIdStep (m : Int) (p : Prod) : Int :=
  if p.id.head? = some 'P' then
    let num := atoi (p.id.drop 1)
    if num > m then num else m
  else m

/-- `generate_unique_id` from `product.c`: maximum `P`-suffix over the
inventory (starting at 0), plus one, rendered as `sprintf("P%03d", ...)`. -/
def generate_unique_id (inv : Invent) : List Char :=
  let max_id := inv.products.foldl maxIdStep 0
  'P' :: pad3 (max_id + 1).toNat

/-- Modelled from the spec (§4.1): the id scan described declaratively —
filter the products whose id begins with the prefix `P`, parse the digits
after the prefix, and take the maximum (0 when no product matches). Used
to compare `generate_unique_id` against the spec's wording. -/
def spec_max_p_suffix (inv : Invent) : Int :=
  ((inv.products.filter (fun p => p.id.head? = some 'P')).map
    (fun p => atoi (p.id.drop 1))).foldl max 0

/-- The values `display_inventory_statistics` computes and prints. -/
structure Stats where
  product_count : Nat
  total_qty : Int
  total_value : ℚ
  average_price : ℚ
  low_stock_count : Nat
  low_stock_percent : Option ℚ
deriving DecidableEq

/-- `display_inventory_statistics` from `display.c`: one pass accumulating
total quantity, total value and the `is_low_stock` count; average price
only when `total_qty > 0` (else 0); the percentage line only when
`product_count > 0` (else the no-percentage branch, here `none`). -/
def display_inventory_statistics (inv : Invent) : Stats :=
  let total_qty : Int := inv.products.foldl (fun a p => a + p.quantity) 0
  let total_value : ℚ := inv.products.foldl (fun a p => a + (p.quantity : ℚ) * p.price) 0
  let low_stock_count : Nat := inv.products.foldl (fun a p => if is_low_stock p then a + 1 else a) 0
  let average_price : ℚ := if 0 < total_qty then total_value / (total_qty : ℚ) else 0
  let low_stock_percent : Option ℚ :=
    if 0 < inv.products.length then
      some ((low_stock_count : ℚ) / (inv.products.length : ℚ) * 100)
    else none
  { product_count := inv.products.length
    total_qty := total_qty
    total_value := total_value
    average_price := average_price
    low_stock_count := low_stock_count
    low_stock_percent := low_stock_percent }

/-- `display_recent_changes` from `display.c`: read at most 100 lines of
the log into memory, then print from `start = total > count ? total - count : 0`
to the end, in file order. Returns the printed lines ([] when the log
file does not exist). -/
def display_recent_changes (log : Option (List (List Char))) (count : Int) :
    List (List Char) :=
  match log with
  | none => []
  | some ls =>
    let lines := ls.take 100
    let total : Int := (lines.length : Int)
    let start : Int := if total > count then total - count else 0
    lines.drop start.toNat

/-- Modelled from the spec (§4.4 `recent`): the last `n` lines of a list of
lines (all of them when it is shorter than `n`). -/
def lastLines (n : Int) (ls : List (List Char)) : List (List Char) :=
  ls.drop ((ls.length : Int) - n).toNat

/-- The `Change` enum from `product.h`. -/
inductive Change where
  | ADD_PRODUCT
  | MODIFY_PRODUCT
  | DELETE_PRODUCT
deriving DecidableEq

/-- A broken-down local time, as the `struct tm` fields `strftime` reads
(already adjusted: calendar year and 1-based month). -/
structure Tm where
  year : Nat
  month : Nat
  day : Nat
  hour : Nat
  minute : Nat
  second : Nat

/-- `strftime` with format `"%Y-%m-%d %H:%M:%S"`. -/
def formatTimestamp (t : Tm) : List Char :=
  natChars t.year ++ '-' :: (pad2Min t.month ++ '-' :: (pad2Min t.day ++ ' ' ::
    (pad2Min t.hour ++ ':' :: (pad2Min t.minute ++ ':' :: pad2Min t.second))))

/-- The action word `log_inventory_change` selects. -/
def actionName : Change → List Char
  | Change.ADD_PRODUCT => "ADDED".toList
  | Change.MODIFY_PRODUCT => "MODIFIED".toList
  | Change.DELETE_PRODUCT => "DELETED".toList

/-- The full log line
`"[%s] %s: %s (ID: %s, Qty: %d, Price: %.2f)"` (add/delete entries). -/
def fullLogLine (ts action : List Char) (p : Prod) : List Char :=
  '[' :: ts ++ ']' :: ' ' :: action ++ ':' :: ' ' :: p.name ++ " (ID: ".toList ++
    p.id ++ ", Qty: ".toList ++ intChars p.quantity ++ ", Price: ".toList ++
    floatChars2 p.price ++ [')']

/-- The reduced log line `"[%s] %s: %s (ID: %s)"` (modify entries). -/
def shortLogLine (ts action : List Char) (p : Prod) : List Char :=
  '[' :: ts ++ ']' :: ' ' :: action ++ ':' :: ' ' :: p.name ++ " (ID: ".toList ++
    p.id ++ [')']

/-- `log_inventory_change` from `modification.c`: the appended line, `none`
when the guards write nothing. `ADD_PRODUCT` writes the full line from
`after`, `DELETE_PRODUCT` from `before`, `MODIFY_PRODUCT` the reduced
line (from `after`, requiring both snapshots). -/
def log_inventory_change (change : Change) (before after : Option Prod)
    (t : Tm) : Option (List Char) :=
  let timestamp := formatTimestamp t
  let action := actionName change
  match change, before, after with
  | Change.ADD_PRODUCT, _, some a => some (fullLogLine timestamp action a)
  | Change.DELETE_PRODUCT, some b, _ => some (fullLogLine timestamp action b)
  | Change.MODIFY_PRODUCT, some _, some a => some (shortLogLine timestamp action a)
  | _, _, _ => none

/-- A text field that survives the store format: non-empty, within the
`sscanf` width, and free of the delimiter and of line breaks. -/
def goodField (w : Nat) (f : List Char) : Prop :=
  f ≠ [] ∧ f.length ≤ w ∧ ∀ c ∈ f, c ≠ ',' ∧ c ≠ '\n'

/-- A product all of whose text fields survive the store format (the widths
are the C array bounds: name 49, id 9, category 29, date 10). -/
def goodProd (p : Prod) : Prop :=
  goodField 49 p.name ∧ goodField 9 p.id ∧ goodField 29 p.category ∧
    goodField 10 p.date

/-- The record `save` followed by `load` reproduces: every field exact,
the price rounded to the two decimals `%.2f` keeps. -/
def roundPrice (p : Prod) : Prod := { p with price := round2 p.price }

/-- What a decimal digit character is for the scanners: a digit, not
whitespace, and none of the delimiter or sign or point characters. -/
def digitish (c : Char) : Prop :=
  c.isDigit = true ∧ isCSpace c = false ∧ c ≠ '-' ∧ c ≠ '+' ∧ c ≠ ',' ∧
    c ≠ '.' ∧ c ≠ '\n'

instance (c : Char) : Decidable (digitish c) := by
  unfold digitish; infer_instance

instance (w : Nat) (f : List Char) : Decidable (goodField w f) := by
  unfold goodField; infer_instance

instance (p : Prod) : Decidable (goodProd p) := by
  unfold goodProd; infer_instance

/-- A concrete well-formed product, used in witnesses. -/
def pW : Prod :=
  { name := "Rice".toList, id := "P001".toList, category := "Food".toList,
    quantity := 10, price := 500, date := "2026-01-02".toList, min_stock := 5 }

/-- A second concrete product with a distinct id, used in witnesses. -/
def pX : Prod :=
  { name := "Beans".toList, id := "P003".toList, category := "Food".toList,
    quantity := 4, price := 250, date := "2026-01-02".toList, min_stock := 5 }

/-- Concrete interactive entries for a modify call: keep the name, change
the category, keep the quantity (negative sentinel), change the price,
keep the minimum stock (negative sentinel). -/
def inpW : ModifyInput :=
  { name := [], category := "Grain".toList, quantity := -1, price := 300,
    min_stock := -2 }

/-! ### Lemmas -/

theorem digitChar_digitish {d : Nat} (hd : d < 10) :
    digitish (digitChar d) ∧ digitVal (digitChar d) = d := by
  interval_cases d <;> exact ⟨by decide, by decide⟩

theorem charsToNat_append_singleton (xs : List Char) (c : Char) :
    charsToNat (xs ++ [c]) = 10 * charsToNat xs + digitVal c := by
  unfold charsToNat
  rw [List.foldl_append]
  simp

theorem natCharsGo_spec :
    ∀ fuel n, n < fuel →
      natCharsGo fuel n ≠ [] ∧ (∀ c ∈ natCharsGo fuel n, digitish c) ∧
        charsToNat (natCharsGo fuel n) = n := by
  intro fuel
  induction fuel with
  | zero => intro n h; omega
  | succ fuel ih =>
    intro n h
    by_cases h10 : n < 10
    · refine ⟨by simp [natCharsGo, h10], ?_, ?_⟩
      · intro c hc
        simp only [natCharsGo, if_pos h10, List.mem_singleton] at hc
        subst hc
        exact (digitChar_digitish h10).1
      · simp only [natCharsGo, if_pos h10]
        unfold charsToNat
        simp [(digitChar_digitish h10).2]
    · have hrec : n / 10 < fuel := by omega
      obtain ⟨ih1, ih2, ih3⟩ := ih (n / 10) hrec
      have hm : n % 10 < 10 := by omega
      refine ⟨by simp [natCharsGo, h10], ?_, ?_⟩
      · intro c hc
        simp only [natCharsGo, if_neg h10, List.mem_append, List.mem_singleton] at hc
        rcases hc with hc | rfl
        · exact ih2 c hc
        · exact (digitChar_digitish hm).1
      · simp only [natCharsGo, if_neg h10]
        rw [charsToNat_append_singleton, ih3, (digitChar_digitish hm).2]
        omega

theorem natChars_ne_nil (n : Nat) : natChars n ≠ [] :=
  (natCharsGo_spec (n + 1) n (by omega)).1

theorem mem_natChars_digitish {n : Nat} {c : Char} (hc : c ∈ natChars n) :
    digitish c :=
  (natCharsGo_spec (n + 1) n (by omega)).2.1 c hc

theorem charsToNat_natChars (n : Nat) : charsToNat (natChars n) = n :=
  (natCharsGo_spec (n + 1) n (by omega)).2.2

theorem charsToNat_replicate_zero (k : Nat) (cs : List Char) :
    charsToNat (List.replicate k '0' ++ cs) = charsToNat cs := by
  induction k with
  | zero => simp
  | succ k ih =>
    have : List.replicate (k + 1) '0' ++ cs = '0' :: (List.replicate k '0' ++ cs) := by
      simp [List.replicate_succ]
    rw [this]
    unfold charsToNat at ih ⊢
    simpa [digitVal] using ih

theorem charsToNat_pad2 {n : Nat} (hn : n < 100) : charsToNat (pad2 n) = n := by
  have h1 : n / 10 < 10 := by omega
  have h2 : n % 10 < 10 := by omega
  unfold charsToNat pad2
  simp only [List.foldl_cons, List.foldl_nil]
  rw [(digitChar_digitish h1).2, (digitChar_digitish h2).2]
  omega

theorem mem_pad2_digitish {n : Nat} (hn : n < 100) {c : Char} (hc : c ∈ pad2 n) :
    digitish c := by
  have h1 : n / 10 < 10 := by omega
  have h2 : n % 10 < 10 := by omega
  rcases (by simpa [pad2] using hc : c = digitChar (n / 10) ∨ c = digitChar (n % 10)) with rfl | rfl
  · exact (digitChar_digitish h1).1
  · exact (digitChar_digitish h2).1

theorem mem_pad3_digitish {n : Nat} {c : Char} (hc : c ∈ pad3 n) : digitish c := by
  unfold pad3 at hc
  rcases List.mem_append.mp hc with h | h
  · rcases List.eq_of_mem_replicate h with rfl
    exact (digitChar_digitish (by norm_num : (0 : Nat) < 10)).1
  · exact mem_natChars_digitish h

theorem pad3_ne_nil (n : Nat) : pad3 n ≠ [] := by
  unfold pad3
  intro h
  exact natChars_ne_nil n (List.append_eq_nil.mp h).2

theorem charsToNat_pad3 (n : Nat) : charsToNat (pad3 n) = n := by
  unfold pad3
  rw [charsToNat_replicate_zero, charsToNat_natChars]

theorem scanSet_append {stop : Char → Bool} {f r : List Char}
    (hf : ∀ c ∈ f, stop c = false) {w : Nat} (hw : f.length ≤ w)
    (hr : ∀ c, r.head? = some c → stop c = true) :
    scanSet stop w (f ++ r) = (f, r) := by
  induction f generalizing w with
  | nil =>
    cases r with
    | nil => cases w <;> rfl
    | cons c r' =>
      cases w with
      | zero => rfl
      | succ w => simp [scanSet, hr c rfl]
  | cons a f' ih =>
    cases w with
    | zero => simp at hw
    | succ w =>
      have ha : stop a = false := hf a (List.mem_cons_self a f')
      simp [scanSet, ha,
        ih (fun c hc => hf c (List.mem_cons_of_mem a hc)) (by simpa using hw)]

theorem scanDigits_append {ds r : List Char}
    (hd : ∀ c ∈ ds, c.isDigit = true)
    (hr : ∀ c, r.head? = some c → c.isDigit = false) :
    scanDigits (ds ++ r) = (ds, r) := by
  induction ds with
  | nil =>
    cases r with
    | nil => rfl
    | cons c r' => simp [scanDigits, hr c rfl]
  | cons a t ih =>
    simp [scanDigits, hd a (List.mem_cons_self a t),
      ih (fun c hc => hd c (List.mem_cons_of_mem a hc))]

theorem dropWhile_head_false {p : Char → Bool} {cs : List Char}
    (h : ∀ c, cs.head? = some c → p c = false) :
    cs.dropWhile p = cs := by
  cases cs with
  | nil => rfl
  | cons c t => simp [List.dropWhile_cons, h c rfl]

theorem parseInt_digits_comma {ds r : List Char} (hnil : ds ≠ [])
    (hd : ∀ c ∈ ds, digitish c) :
    parseInt (ds ++ ',' :: r) = some ((charsToNat ds : Int), ',' :: r) := by
  obtain ⟨c0, t0, rfl⟩ : ∃ c0 t0, ds = c0 :: t0 := by
    cases ds with
    | nil => exact absurd rfl hnil
    | cons a b => exact ⟨a, b, rfl⟩
  have hd0 : digitish c0 := hd c0 (List.mem_cons_self c0 t0)
  have hcs : ((c0 :: t0) ++ ',' :: r).dropWhile isCSpace = (c0 :: t0) ++ ',' :: r :=
    dropWhile_head_false (by
      intro c hc
      simp only [List.cons_append, List.head?_cons, Option.some.injEq] at hc
      subst hc
      exact hd0.2.1)
  have hscan : scanDigits ((c0 :: t0) ++ ',' :: r) = (c0 :: t0, ',' :: r) :=
    scanDigits_append (fun c hc => (hd c hc).1) (by
      intro c hc
      simp only [List.head?_cons, Option.some.injEq] at hc
      subst hc
      decide)
  rw [show ((c0 :: t0) ++ ',' :: r) = c0 :: (t0 ++ ',' :: r) from rfl] at hcs hscan ⊢
  simp only [parseInt, hcs, List.head?_cons, Option.some.injEq]
  simp [hd0.2.2.1, hd0.2.2.2.1, hscan]

theorem parseInt_neg_digits_comma {ds r : List Char} (hnil : ds ≠ [])
    (hd : ∀ c ∈ ds, digitish c) :
    parseInt (('-' :: ds) ++ ',' :: r) = some (-(charsToNat ds : Int), ',' :: r) := by
  have hcs : (('-' :: ds) ++ ',' :: r).dropWhile isCSpace = ('-' :: ds) ++ ',' :: r :=
    dropWhile_head_false (by
      intro c hc
      simp only [List.cons_append, List.head?_cons, Option.some.injEq] at hc
      subst hc
      decide)
  have hscan : scanDigits (ds ++ ',' :: r) = (ds, ',' :: r) :=
    scanDigits_append (fun c hc => (hd c hc).1) (by
      intro c hc
      simp only [List.head?_cons, Option.some.injEq] at hc
      subst hc
      decide)
  rw [show (('-' :: ds) ++ ',' :: r) = '-' :: (ds ++ ',' :: r) from rfl] at hcs ⊢
  simp only [parseInt, hcs, List.head?_cons, Option.some.injEq]
  simp [hscan, hnil]

theorem parseInt_intChars (z : Int) (r : List Char) :
    parseInt (intChars z ++ ',' :: r) = some (z, ',' :: r) := by
  rcases lt_or_le z 0 with hz | hz
  · have h1 : intChars z = '-' :: natChars z.natAbs := by
      simp [intChars, hz]
    rw [h1, parseInt_neg_digits_comma (natChars_ne_nil z.natAbs)
      (fun c hc => mem_natChars_digitish hc), charsToNat_natChars]
    congr 2
    omega
  · have h1 : intChars z = natChars z.natAbs := by
      simp [intChars, not_lt.mpr hz]
    rw [h1, parseInt_digits_comma (natChars_ne_nil z.natAbs)
      (fun c hc => mem_natChars_digitish hc), charsToNat_natChars]
    congr 2
    omega

theorem parseUFloat_exact {d1 d2 r : List Char} (h1 : d1 ≠ [])
    (hd1 : ∀ c ∈ d1, digitish c) (hd2 : ∀ c ∈ d2, digitish c) :
    parseUFloat (d1 ++ '.' :: (d2 ++ ',' :: r)) =
      some ((charsToNat d1 : ℚ) + (charsToNat d2 : ℚ) / (10 : ℚ) ^ d2.length,
        ',' :: r) := by
  have hs1 : scanDigits (d1 ++ '.' :: (d2 ++ ',' :: r)) = (d1, '.' :: (d2 ++ ',' :: r)) :=
    scanDigits_append (fun c hc => (hd1 c hc).1) (by
      intro c hc
      simp only [List.head?_cons, Option.some.injEq] at hc
      subst hc
      decide)
  have hs2 : scanDigits (d2 ++ ',' :: r) = (d2, ',' :: r) :=
    scanDigits_append (fun c hc => (hd2 c hc).1) (by
      intro c hc
      simp only [List.head?_cons, Option.some.injEq] at hc
      subst hc
      decide)
  simp only [parseUFloat, hs1, List.head?_cons, List.tail_cons]
  simp [hs2, h1]

theorem parseFloat_floatChars2 (q : ℚ) (r : List Char) :
    parseFloat (floatChars2 q ++ ',' :: r) = some (round2 q, ',' :: r) := by
  have hmod : (round (q * 100)).natAbs % 100 < 100 := Nat.mod_lt _ (by norm_num)
  have hval : (charsToNat (natChars ((round (q * 100)).natAbs / 100)) : ℚ) +
      (charsToNat (pad2 ((round (q * 100)).natAbs % 100)) : ℚ) /
        (10 : ℚ) ^ (pad2 ((round (q * 100)).natAbs % 100)).length
      = ((round (q * 100)).natAbs : ℚ) / 100 := by
    rw [charsToNat_natChars, charsToNat_pad2 hmod,
      show ((10 : ℚ) ^ (pad2 ((round (q * 100)).natAbs % 100)).length) = 100 by
        norm_num [pad2],
      eq_div_iff (by norm_num : (100 : ℚ) ≠ 0)]
    ring_nf
    norm_cast
    omega
  have hpu : parseUFloat (natChars ((round (q * 100)).natAbs / 100) ++
      '.' :: (pad2 ((round (q * 100)).natAbs % 100) ++ ',' :: r)) =
      some (((round (q * 100)).natAbs : ℚ) / 100, ',' :: r) := by
    rw [parseUFloat_exact (natChars_ne_nil _) (fun c hc => mem_natChars_digitish hc)
      (fun c hc => mem_pad2_digitish hmod hc), hval]
  rcases lt_or_le (round (q * 100)) 0 with hsign | hsign
  · have hfc : floatChars2 q ++ ',' :: r =
        '-' :: (natChars ((round (q * 100)).natAbs / 100) ++
          '.' :: (pad2 ((round (q * 100)).natAbs % 100) ++ ',' :: r)) := by
      simp [floatChars2, hsign]
    rw [hfc]
    have hcs : ('-' :: (natChars ((round (q * 100)).natAbs / 100) ++
        '.' :: (pad2 ((round (q * 100)).natAbs % 100) ++ ',' :: r))).dropWhile isCSpace =
        '-' :: (natChars ((round (q * 100)).natAbs / 100) ++
          '.' :: (pad2 ((round (q * 100)).natAbs % 100) ++ ',' :: r)) :=
      dropWhile_head_false (by
        intro c hc
        simp only [List.head?_cons, Option.some.injEq] at hc
        subst hc
        decide)
    have habs : ((round (q * 100)).natAbs : ℚ) = -((round (q * 100) : ℤ) : ℚ) := by
      rw [Int.cast_natAbs]
      exact_mod_cast abs_of_neg hsign
    simp only [parseFloat, hcs, List.head?_cons, List.tail_cons]
    simp [hpu, habs, round2]
    ring
  · obtain ⟨c0, t0, hN⟩ : ∃ c0 t0,
        natChars ((round (q * 100)).natAbs / 100) = c0 :: t0 := by
      cases h : natChars ((round (q * 100)).natAbs / 100) with
      | nil => exact absurd h (natChars_ne_nil _)
      | cons a b => exact ⟨a, b, rfl⟩
    have hd0 : digitish c0 :=
      mem_natChars_digitish (hN ▸ List.mem_cons_self c0 t0)
    have hfc : floatChars2 q ++ ',' :: r =
        natChars ((round (q * 100)).natAbs / 100) ++
          '.' :: (pad2 ((round (q * 100)).natAbs % 100) ++ ',' :: r) := by
      simp [floatChars2, not_lt.mpr hsign]
    rw [hfc, hN]
    have hcs : (c0 :: (t0 ++
        '.' :: (pad2 ((round (q * 100)).natAbs % 100) ++ ',' :: r))).dropWhile isCSpace =
        c0 :: (t0 ++
          '.' :: (pad2 ((round (q * 100)).natAbs % 100) ++ ',' :: r)) :=
      dropWhile_head_false (by
        intro c hc
        simp only [List.head?_cons, Option.some.injEq] at hc
        subst hc
        exact hd0.2.1)
    rw [hN] at hpu
    rw [show (c0 :: t0) ++
        '.' :: (pad2 ((round (q * 100)).natAbs % 100) ++ ',' :: r) =
        c0 :: (t0 ++ '.' :: (pad2 ((round (q * 100)).natAbs % 100) ++ ',' :: r))
      from rfl] at hpu ⊢
    simp only [parseFloat, hcs, List.head?_cons, Option.some.injEq]
    rw [if_neg (by
      rintro (h | h)
      · exact hd0.2.2.1 h
      · exact hd0.2.2.2.1 h)]
    have habs : ((round (q * 100)).natAbs : ℚ) = ((round (q * 100) : ℤ) : ℚ) := by
      rw [Int.cast_natAbs]
      exact_mod_cast abs_of_nonneg hsign
    simp [hpu, habs, round2, hd0.2.2.1]

theorem scanField_exact {w : Nat} {f r : List Char} (hf : goodField w f) :
    scanField w (f ++ ',' :: r) = some (f, ',' :: r) := by
  obtain ⟨hne, hlen, hc⟩ := hf
  have h : scanSet (fun c => c = ',') w (f ++ ',' :: r) = (f, ',' :: r) :=
    scanSet_append (fun c hcm => by simp [(hc c hcm).1]) hlen
      (by
        intro c h0
        simp only [List.head?_cons, Option.some.injEq] at h0
        subst h0
        simp)
  simp [scanField, h, hne]

theorem expectChar_cons_self (c : Char) (r : List Char) :
    expectChar c (c :: r) = some r := by
  simp [expectChar]

theorem scanDate_exact {f : List Char} (hf : goodField 10 f) :
    scanSet (fun c => c = ',' || c = '\n') 10 f = (f, []) := by
  obtain ⟨hne, hlen, hc⟩ := hf
  have h : scanSet (fun c => c = ',' || c = '\n') 10 (f ++ []) = (f, []) :=
    scanSet_append
      (fun c hcm => by simp [(hc c hcm).1, (hc c hcm).2]) hlen
      (by intro c h0; simp at h0)
  simpa using h

theorem parse_line_serialize {p : Prod} (hp : goodProd p) :
    parse_line (serialize_product p) = some (roundPrice p) := by
  obtain ⟨hname, hid, hcat, hdate⟩ := hp
  have hdne : p.date ≠ [] := hdate.1
  simp only [parse_line, serialize_product, scanField_exact hname,
    scanField_exact hid, scanField_exact hcat, parseInt_intChars,
    parseFloat_floatChars2, expectChar_cons_self, scanDate_exact hdate,
    Option.bind_eq_bind, Option.some_bind, hdne, roundPrice]
  simp [hdne]

theorem loadLoop_eq (lines : List (List Char)) :
    ∀ acc : List Prod, acc.length ≤ Max →
      loadLoop lines acc = acc ++ (lines.filterMap parse_line).take (Max - acc.length) := by
  induction lines with
  | nil =>
    intro acc _
    simp [loadLoop]
  | cons l ls ih =>
    intro acc hacc
    by_cases hfull : acc.length < Max
    · cases hpl : parse_line l with
      | none =>
        simp only [loadLoop, if_pos hfull, hpl]
        rw [ih acc hacc]
        simp [List.filterMap_cons, hpl]
      | some p =>
        have h2 : (acc ++ [p]).length ≤ Max := by
          simp only [List.length_append, List.length_singleton]
          omega
        simp only [loadLoop, if_pos hfull, hpl]
        rw [ih (acc ++ [p]) h2]
        simp only [List.filterMap_cons, hpl, List.append_assoc, List.singleton_append,
          List.length_append, List.length_singleton]
        congr 1
        have hk : Max - acc.length = (Max - (acc.length + 1)) + 1 := by omega
        rw [hk, List.take_succ_cons]
    · have hlen : Max - acc.length = 0 := by omega
      simp [loadLoop, hfull, hlen]

theorem filterMap_parse_save {l : List Prod} (h : ∀ p ∈ l, goodProd p) :
    (l.map serialize_product).filterMap parse_line = l.map roundPrice := by
  induction l with
  | nil => rfl
  | cons p t ih =>
    simp only [List.map_cons, List.filterMap_cons,
      parse_line_serialize (h p (List.mem_cons_self p t))]
    rw [ih (fun q hq => h q (List.mem_cons_of_mem p hq))]

theorem searchGo_eq_neg_one {id : List Char} {l : List Prod}
    (h : ∀ q ∈ l, q.id ≠ id) (k : Nat) : searchGo id l k = -1 := by
  induction l generalizing k with
  | nil => rfl
  | cons p t ih =>
    have hp : p.id ≠ id := h p (List.mem_cons_self p t)
    simp [searchGo, hp, ih (fun q hq => h q (List.mem_cons_of_mem p hq))]

theorem searchGo_ne_neg_one {id : List Char} {l : List Prod}
    (h : ∃ q ∈ l, q.id = id) (k : Nat) : searchGo id l k ≠ -1 := by
  induction l generalizing k with
  | nil => simp at h
  | cons p t ih =>
    by_cases hp : p.id = id
    · simp only [searchGo, if_pos hp]
      omega
    · obtain ⟨q, hq, hqid⟩ := h
      rcases List.mem_cons.mp hq with rfl | hq
      · exact absurd hqid hp
      · simp only [searchGo, if_neg hp]
        exact ih ⟨q, hq, hqid⟩ (k + 1)

theorem searchGo_append {id : List Char} {l : List Prod} {p : Prod}
    (h : ∀ q ∈ l, q.id ≠ id) (hp : p.id = id) (k : Nat) :
    searchGo id (l ++ [p]) k = ((k + l.length : Nat) : Int) := by
  induction l generalizing k with
  | nil => simp [searchGo, hp]
  | cons a t ih =>
    have ha : a.id ≠ id := h a (List.mem_cons_self a t)
    simp only [List.cons_append, searchGo, if_neg ha, List.append_eq]
    rw [ih (fun q hq => h q (List.mem_cons_of_mem a hq)) (k + 1)]
    congr 1
    simp only [List.length_cons]
    omega

theorem searchGo_found {id : List Char} {l : List Prod} {i : Nat}
    (hi : i < l.length) (hm : (l.getD i default).id = id)
    (hf : ∀ j < i, (l.getD j default).id ≠ id) (k : Nat) :
    searchGo id l k = ((k + i : Nat) : Int) := by
  induction l generalizing i k with
  | nil => simp at hi
  | cons p t ih =>
    cases i with
    | zero =>
      simp only [List.getD_cons_zero] at hm
      simp [searchGo, hm]
    | succ i' =>
      have hp : p.id ≠ id := by simpa using hf 0 (Nat.succ_pos i')
      simp only [searchGo, if_neg hp]
      have hm' : (t.getD i' default).id = id := by simpa using hm
      have hf' : ∀ j < i', (t.getD j default).id ≠ id := by
        intro j hj
        simpa using hf (j + 1) (by omega)
      rw [ih (by simpa using hi) hm' hf' (k + 1)]
      congr 1
      omega

theorem mem_take_getD {α : Type} [Inhabited α] {l : List α} {i : Nat} {q : α}
    (h : q ∈ l.take i) : ∃ j, j < i ∧ j < l.length ∧ l.getD j default = q := by
  induction l generalizing i with
  | nil => simp at h
  | cons a t ih =>
    cases i with
    | zero => simp at h
    | succ i' =>
      simp only [List.take_succ_cons] at h
      rcases List.mem_cons.mp h with rfl | h
      · exact ⟨0, by omega, by simp, by simp⟩
      · obtain ⟨j, hj1, hj2, hj3⟩ := ih h
        exact ⟨j + 1, by omega, by simpa using Nat.succ_lt_succ hj2, by simpa using hj3⟩

theorem mem_drop_getD {α : Type} [Inhabited α] {l : List α} {i : Nat} {q : α}
    (h : q ∈ l.drop i) : ∃ j, i ≤ j ∧ j < l.length ∧ l.getD j default = q := by
  induction l generalizing i with
  | nil => simp at h
  | cons a t ih =>
    cases i with
    | zero =>
      rcases List.mem_cons.mp (by simpa using h) with rfl | h'
      · exact ⟨0, le_refl 0, by simp, by simp⟩
      · obtain ⟨j, _, hj2, hj3⟩ := ih (i := 0) (by simpa using h')
        exact ⟨j + 1, by omega, by simpa using Nat.succ_lt_succ hj2, by simpa using hj3⟩
    | succ i' =>
      obtain ⟨j, hj1, hj2, hj3⟩ := ih (by simpa using h)
      exact ⟨j + 1, by omega, by simpa using Nat.succ_lt_succ hj2, by simpa using hj3⟩

theorem atoi_digitish {cs : List Char} (hne : cs ≠ [])
    (hd : ∀ c ∈ cs, digitish c) : atoi cs = (charsToNat cs : Int) := by
  obtain ⟨c0, t0, rfl⟩ : ∃ c0 t0, cs = c0 :: t0 := by
    cases cs with
    | nil => exact absurd rfl hne
    | cons a b => exact ⟨a, b, rfl⟩
  have hd0 : digitish c0 := hd c0 (List.mem_cons_self c0 t0)
  have hcs : (c0 :: t0).dropWhile isCSpace = c0 :: t0 :=
    dropWhile_head_false (by
      intro c h0
      simp only [List.head?_cons, Option.some.injEq] at h0
      subst h0
      exact hd0.2.1)
  have hscan : scanDigits (c0 :: t0) = (c0 :: t0, []) := by
    have h : scanDigits ((c0 :: t0) ++ []) = (c0 :: t0, []) :=
      scanDigits_append (fun c hc => (hd c hc).1) (by intro c h0; simp at h0)
    simpa using h
  simp only [atoi, hcs, List.head?_cons, Option.some.injEq]
  simp [hscan, hd0.2.2.1, hd0.2.2.2.1]

theorem atoi_pad3 (n : Nat) : atoi (pad3 n) = (n : Int) := by
  rw [atoi_digitish (pad3_ne_nil n) (fun c hc => mem_pad3_digitish hc),
    charsToNat_pad3]

theorem foldl_maxIdStep_eq (l : List Prod) (m : Int) :
    l.foldl maxIdStep m =
      ((l.filter (fun p => p.id.head? = some 'P')).map
        (fun p => atoi (p.id.drop 1))).foldl max m := by
  induction l generalizing m with
  | nil => rfl
  | cons p t ih =>
    by_cases hp : p.id.head? = some 'P'
    · have hstep : maxIdStep m p = max m (atoi (p.id.drop 1)) := by
        simp only [maxIdStep, if_pos hp]
        rcases le_or_lt (atoi (p.id.drop 1)) m with h | h
        · rw [if_neg (not_lt.mpr h), max_eq_left h]
        · rw [if_pos h, max_eq_right (le_of_lt h)]
      simp [List.filter_cons, hp, hstep, ih]
    · simp [maxIdStep, List.filter_cons, hp, ih]

theorem le_foldl_max (l : List Int) (m : Int) : m ≤ l.foldl max m := by
  induction l generalizing m with
  | nil => simp
  | cons a t ih => exact le_trans (le_max_left m a) (ih (max m a))

theorem mem_le_foldl_max {l : List Int} {a : Int} (h : a ∈ l) (m : Int) :
    a ≤ l.foldl max m := by
  induction l generalizing m with
  | nil => simp at h
  | cons b t ih =>
    rcases List.mem_cons.mp h with rfl | h
    · exact le_trans (le_max_right m a) (le_foldl_max t (max m a))
    · exact ih h (max m b)

theorem foldl_qty (l : List Prod) (a : Int) :
    l.foldl (fun a p => a + p.quantity) a = a + (l.map Prod.quantity).sum := by
  induction l generalizing a with
  | nil => simp
  | cons p t ih =>
    simp only [List.foldl_cons, List.map_cons, List.sum_cons, ih]
    ring

theorem foldl_value (l : List Prod) (a : ℚ) :
    l.foldl (fun a p => a + (p.quantity : ℚ) * p.price) a =
      a + (l.map (fun p => (p.quantity : ℚ) * p.price)).sum := by
  induction l generalizing a with
  | nil => simp
  | cons p t ih =>
    simp only [List.foldl_cons, List.map_cons, List.sum_cons, ih]
    ring

theorem foldl_low (l : List Prod) (a : Nat) :
    l.foldl (fun a p => if is_low_stock p then a + 1 else a) a =
      a + l.countP is_low_stock := by
  induction l generalizing a with
  | nil => simp
  | cons p t ih =>
    by_cases hp : is_low_stock p
    · simp only [List.foldl_cons, List.countP_cons, hp, if_pos rfl, ih]
      simp
      omega
    · simp only [List.foldl_cons, List.countP_cons, hp, ih]
      simp [hp]

/-! ### Claims -/

/-- C1: for every inventory and product, `add_product` fails and leaves the
inventory (contents and count) unchanged when the inventory already holds
1000 products (capacity exceeded) or when some product already has the given
id (duplicate id); otherwise it appends the product at the end, the count
increases by exactly 1, and `search_product_by_id` of the new id returns
the index of the appended record. -/
theorem C1_add_product (inv : Invent) (p : Prod) :
    (Max ≤ inv.product_count →
      add_product inv p = (inv, AddResult.capacityExceeded)) ∧
    (inv.product_count < Max → (∃ q ∈ inv.products, q.id = p.id) →
      add_product inv p = (inv, AddResult.duplicateId)) ∧
    (inv.product_count < Max → (∀ q ∈ inv.products, q.id ≠ p.id) →
      add_product inv p = (⟨inv.products ++ [p]⟩, AddResult.added) ∧
      (add_product inv p).1.product_count = inv.product_count + 1 ∧
      search_product_by_id (add_product inv p).1 p.id = (inv.product_count : Int)) := by
  refine ⟨?_, ?_, ?_⟩
  · intro h
    simp only [Invent.product_count] at h
    simp [add_product, h]
  · intro h1 h2
    have hne : search_product_by_id inv p.id ≠ -1 := searchGo_ne_neg_one h2 0
    simp only [Invent.product_count] at h1
    simp [add_product, not_le.mpr h1, hne]
  · intro h1 h2
    have hs : search_product_by_id inv p.id = -1 := searchGo_eq_neg_one h2 0
    simp only [Invent.product_count] at h1
    have hadd : add_product inv p = (⟨inv.products ++ [p]⟩, AddResult.added) := by
      simp [add_product, not_le.mpr h1, hs]
    refine ⟨hadd, ?_, ?_⟩
    · rw [hadd]
      simp [Invent.product_count]
    · rw [hadd]
      show searchGo p.id (inv.products ++ [p]) 0 = (inv.product_count : Int)
      rw [searchGo_append h2 rfl 0]
      simp [Invent.product_count]

/-- Witness for C1: adding a fresh product to an empty inventory succeeds,
the count becomes 1, and searching the id finds index 0. -/
theorem C1_add_product_witness :
    add_product ⟨[]⟩ pW = (⟨[pW]⟩, AddResult.added) ∧
    (add_product ⟨[]⟩ pW).1.product_count = 1 ∧
    search_product_by_id (add_product ⟨[]⟩ pW).1 pW.id = 0 := by
  have h := (C1_add_product ⟨[]⟩ pW).2.2 (by decide) (by simp)
  exact ⟨h.1, h.2.1, h.2.2⟩

/-- C3: for every inventory containing a product with the given id (first
occurrence at index `i`, ids unique per the data-model invariant), a
confirmed delete removes exactly that record by shifting every subsequent
record one position left, decreases the count by exactly 1, and a
subsequent `search_product_by_id` for that id reports "not found" (-1). -/
theorem C3_delete_product (inv : Invent) (id : List Char) (i : Nat)
    (hnodup : (inv.products.map Prod.id).Nodup)
    (hi : i < inv.products.length)
    (hm : (inv.products.getD i default).id = id)
    (hf : ∀ j < i, (inv.products.getD j default).id ≠ id) :
    delete_product inv id 'y' =
      (⟨inv.products.take i ++ inv.products.drop (i + 1)⟩, true) ∧
    (delete_product inv id 'y').1.product_count + 1 = inv.product_count ∧
    search_product_by_id (delete_product inv id 'y').1 id = -1 := by
  have hsearch : search_product_by_id inv id = (i : Int) := by
    have h := searchGo_found hi hm hf 0
    simpa using h
  have hdel : delete_product inv id 'y' =
      (⟨inv.products.take i ++ inv.products.drop (i + 1)⟩, true) := by
    simp only [delete_product, hsearch]
    rw [if_neg (by omega), if_neg (by decide), Int.toNat_natCast]
  have hrem : ∀ q ∈ inv.products.take i ++ inv.products.drop (i + 1), q.id ≠ id := by
    intro q hq
    rcases List.mem_append.mp hq with hq | hq
    · obtain ⟨j, hj1, _, hj3⟩ := mem_take_getD hq
      rw [← hj3]
      exact hf j hj1
    · obtain ⟨j, hj1, hj2, hj3⟩ := mem_drop_getD hq
      rw [← hj3]
      intro heq
      have hjm : j < (inv.products.map Prod.id).length := by simpa using hj2
      have him : i < (inv.products.map Prod.id).length := by simpa using hi
      have hij : j = i := by
        have hgi : (inv.products.map Prod.id)[j] = (inv.products.map Prod.id)[i] := by
          rw [List.getElem_map, List.getElem_map,
            ← List.getD_eq_getElem _ default hj2, ← List.getD_eq_getElem _ default hi,
            heq, hm]
        exact (List.Nodup.getElem_inj_iff hnodup).mp hgi
      omega
  refine ⟨hdel, ?_, ?_⟩
  · rw [hdel]
    simp only [Invent.product_count, List.length_append, List.length_take,
      List.length_drop]
    omega
  · rw [hdel]
    exact searchGo_eq_neg_one hrem 0

/-- Witness for C3: deleting `P003` from a two-product inventory leaves the
one remaining product and the id is no longer found. -/
theorem C3_delete_product_witness :
    delete_product ⟨[pW, pX]⟩ ("P003".toList) 'y' = (⟨[pW]⟩, true) ∧
    search_product_by_id (delete_product ⟨[pW, pX]⟩ ("P003".toList) 'y').1
      ("P003".toList) = -1 := by
  have h := C3_delete_product ⟨[pW, pX]⟩ ("P003".toList) 1
    (by decide) (by decide) (by decide) (by decide)
  exact ⟨by rw [h.1]; decide, h.2.2⟩

/-- C7: for every inventory containing a product with the given id (first
occurrence at index `i`), `modify_product` updates only the five prompted
fields of that one product — an empty entry for name or category keeps the
original value, a negative entry for quantity, price or min_stock keeps the
original value and only a non-negative value overwrites it — while the
product's id and date, every other product, and the count are unchanged. -/
theorem C7_modify_product (inv : Invent) (id : List Char) (inp : ModifyInput)
    (i : Nat) (hi : i < inv.products.length)
    (hm : (inv.products.getD i default).id = id)
    (hf : ∀ j < i, (inv.products.getD j default).id ≠ id) :
    modify_product inv id inp =
      (⟨inv.products.set i (applyModify (inv.products.getD i default) inp)⟩, true) ∧
    (applyModify (inv.products.getD i default) inp).id
        = (inv.products.getD i default).id ∧
    (applyModify (inv.products.getD i default) inp).date
        = (inv.products.getD i default).date ∧
    (inp.name = [] → (applyModify (inv.products.getD i default) inp).name
        = (inv.products.getD i default).name) ∧
    (inp.name ≠ [] → (applyModify (inv.products.getD i default) inp).name
        = inp.name) ∧
    (inp.category = [] → (applyModify (inv.products.getD i default) inp).category
        = (inv.products.getD i default).category) ∧
    (inp.category ≠ [] → (applyModify (inv.products.getD i default) inp).category
        = inp.category) ∧
    (inp.quantity < 0 → (applyModify (inv.products.getD i default) inp).quantity
        = (inv.products.getD i default).quantity) ∧
    (0 ≤ inp.quantity → (applyModify (inv.products.getD i default) inp).quantity
        = inp.quantity) ∧
    (inp.price < 0 → (applyModify (inv.products.getD i default) inp).price
        = (inv.products.getD i default).price) ∧
    (0 ≤ inp.price → (applyModify (inv.products.getD i default) inp).price
        = inp.price) ∧
    (inp.min_stock < 0 → (applyModify (inv.products.getD i default) inp).min_stock
        = (inv.products.getD i default).min_stock) ∧
    (0 ≤ inp.min_stock → (applyModify (inv.products.getD i default) inp).min_stock
        = inp.min_stock) ∧
    (∀ j, j ≠ i → (modify_product inv id inp).1.products.getD j default
        = inv.products.getD j default) ∧
    (modify_product inv id inp).1.product_count = inv.product_count := by
  have hsearch : search_product_by_id inv id = (i : Int) := by
    have h := searchGo_found hi hm hf 0
    simpa using h
  have hmod : modify_product inv id inp =
      (⟨inv.products.set i (applyModify (inv.products.getD i default) inp)⟩, true) := by
    simp only [modify_product, hsearch]
    rw [if_neg (by omega), Int.toNat_natCast]
  refine ⟨hmod, rfl, rfl, ?_, ?_, ?_, ?_, ?_, ?_, ?_, ?_, ?_, ?_, ?_, ?_⟩
  · intro h
    simp [applyModify, h]
  · intro h
    simp [applyModify, List.length_pos.mpr h]
  · intro h
    simp [applyModify, h]
  · intro h
    simp [applyModify, List.length_pos.mpr h]
  · intro h
    simp [applyModify, not_le.mpr h]
  · intro h
    simp [applyModify, h]
  · intro h
    simp [applyModify, not_le.mpr h]
  · intro h
    simp [applyModify, h]
  · intro h
    simp [applyModify, not_le.mpr h]
  · intro h
    simp [applyModify, h]
  · intro j hj
    rw [hmod]
    simp only [List.getD_eq_getElem?_getD, List.getElem?_set_ne (Ne.symm hj)]
  · rw [hmod]
    simp [Invent.product_count]

/-- Witness for C7: modifying `P003`, keeping name/quantity/min_stock via
the empty and negative sentinels and changing category and price, rewrites
only those two fields of that one product. -/
theorem C7_modify_product_witness :
    modify_product ⟨[pW, pX]⟩ ("P003".toList) inpW =
      (⟨[pW, { pX with category := "Grain".toList, price := 300 }]⟩, true) := by
  have h := C7_modify_product ⟨[pW, pX]⟩ ("P003".toList) inpW 1
    (by decide) (by decide) (by decide)
  rw [h.1]
  decide

/-- C2: serializing an inventory with `save_inventory` (one comma-delimited
line per product in the fixed order name,id,category,quantity,price,
min_stock,date) and loading it back into a fresh inventory reproduces the
same product count and the same field values, in the original order, with
each price reproduced up to the `%.2f` formatting precision (exactly its
rounding to two decimals, hence within 1/200 of the original). The
hypotheses are the store-format invariants: at most 1000 products and text
fields that are non-empty, within the C array bounds, and free of the
delimiter. -/
theorem C2_save_load_round_trip (inv : Invent)
    (hlen : inv.product_count ≤ Max)
    (hwf : ∀ p ∈ inv.products, goodProd p) :
    (load_inventory (some (save_inventory inv)) init_invent).1.products
        = inv.products.map roundPrice ∧
    (load_inventory (some (save_inventory inv)) init_invent).1.product_count
        = inv.product_count ∧
    ∀ p ∈ inv.products, |(roundPrice p).price - p.price| ≤ 1 / 200 := by
  have h1 : (load_inventory (some (save_inventory inv)) init_invent).1.products
      = inv.products.map roundPrice := by
    simp only [load_inventory, save_inventory]
    rw [loadLoop_eq _ [] (by simp), filterMap_parse_save hwf]
    simp only [List.nil_append, Nat.sub_zero]
    exact List.take_of_length_le (by simpa [Invent.product_count] using hlen)
  refine ⟨h1, ?_, ?_⟩
  · simp [Invent.product_count, h1]
  · intro p hp
    have hb := abs_sub_round (p.price * 100)
    have heq : |(roundPrice p).price - p.price|
        = |p.price * 100 - ((round (p.price * 100) : ℤ) : ℚ)| / 100 := by
      rw [abs_sub_comm]
      simp only [roundPrice, round2]
      rw [show p.price - ((round (p.price * 100) : ℤ) : ℚ) / 100
          = (p.price * 100 - ((round (p.price * 100) : ℤ) : ℚ)) / 100 by ring,
        abs_div]
      norm_num
    rw [heq]
    linarith

/-- Witness for C2 on a concrete two-product inventory. -/
theorem C2_save_load_round_trip_witness :
    (load_inventory (some (save_inventory ⟨[pW, pX]⟩)) init_invent).1.products
        = [pW, pX].map roundPrice ∧
    (load_inventory (some (save_inventory ⟨[pW, pX]⟩)) init_invent).1.product_count
        = 2 := by
  have h := C2_save_load_round_trip ⟨[pW, pX]⟩ (by decide) (by decide)
  exact ⟨h.1, h.2.1⟩

/-- C4: `generate_unique_id` equals "P" followed by one plus the maximum of
the parsed digit suffixes of the ids beginning with "P", zero-padded to 3
digits (the spec-side scan `spec_max_p_suffix` is written independently as
filter/map/fold); it returns "P001" when no id begins with "P", and over an
inventory with ids P001, P003, P010 it returns P011. -/
theorem C4_generate_unique_id (inv : Invent) :
    generate_unique_id inv = 'P' :: pad3 (spec_max_p_suffix inv + 1).toNat ∧
    ((∀ p ∈ inv.products, p.id.head? ≠ some 'P') →
      generate_unique_id inv = "P001".toList) ∧
    generate_unique_id ⟨[{ pW with id := "P001".toList },
      { pW with id := "P003".toList }, { pW with id := "P010".toList }]⟩
      = "P011".toList := by
  have hgen : generate_unique_id inv
      = 'P' :: pad3 (spec_max_p_suffix inv + 1).toNat := by
    unfold generate_unique_id spec_max_p_suffix
    rw [foldl_maxIdStep_eq]
  refine ⟨hgen, ?_, by decide⟩
  intro h
  have hfil : inv.products.filter (fun p => p.id.head? = some 'P') = [] :=
    List.filter_eq_nil_iff.mpr (fun p hp => by simp [h p hp])
  rw [hgen]
  unfold spec_max_p_suffix
  rw [hfil]
  decide

/-- Witness for C4: the no-match branch on the empty inventory. -/
theorem C4_generate_unique_id_witness :
    generate_unique_id ⟨[]⟩ = "P001".toList :=
  (C4_generate_unique_id ⟨[]⟩).2.1 (by simp)

/-- C5: the statistics pass computes total quantity as the sum of the
quantities, total value as the sum of quantity times price, average price
as total value over total quantity with 0 when total quantity is 0,
the low-stock count through `is_low_stock`, takes the no-percentage branch
when the product count is 0, and on the empty inventory everything is 0
with no division performed. -/
theorem C5_statistics (inv : Invent) :
    (display_inventory_statistics inv).total_qty
        = (inv.products.map Prod.quantity).sum ∧
    (display_inventory_statistics inv).total_value
        = (inv.products.map (fun p => (p.quantity : ℚ) * p.price)).sum ∧
    (display_inventory_statistics inv).low_stock_count
        = inv.products.countP is_low_stock ∧
    ((display_inventory_statistics inv).total_qty = 0 →
      (display_inventory_statistics inv).average_price = 0) ∧
    (0 < (display_inventory_statistics inv).total_qty →
      (display_inventory_statistics inv).average_price
        = (display_inventory_statistics inv).total_value
            / ((display_inventory_statistics inv).total_qty : ℚ)) ∧
    ((display_inventory_statistics inv).product_count = 0 →
      (display_inventory_statistics inv).low_stock_percent = none) ∧
    display_inventory_statistics init_invent
      = { product_count := 0, total_qty := 0, total_value := 0,
          average_price := 0, low_stock_count := 0, low_stock_percent := none } := by
  refine ⟨?_, ?_, ?_, ?_, ?_, ?_, rfl⟩
  · simp [display_inventory_statistics, foldl_qty]
  · simp [display_inventory_statistics, foldl_value]
  · simp [display_inventory_statistics, foldl_low]
  · intro h
    simp only [display_inventory_statistics] at h ⊢
    rw [if_neg (by omega)]
  · intro h
    simp only [display_inventory_statistics] at h ⊢
    rw [if_pos h]
  · intro h
    simp only [display_inventory_statistics, Invent.product_count] at h ⊢
    rw [if_neg (by omega)]

/-- Witness for C5: the zero-quantity and zero-count branches on the empty
inventory. -/
theorem C5_statistics_witness :
    (display_inventory_statistics ⟨[]⟩).average_price = 0 ∧
    (display_inventory_statistics ⟨[]⟩).low_stock_percent = none :=
  ⟨(C5_statistics ⟨[]⟩).2.2.2.1 (by decide),
    (C5_statistics ⟨[]⟩).2.2.2.2.2.1 (by decide)⟩

/-- C6: when the store file does not exist, `load_inventory` leaves the
(initially empty) inventory as it is and reports no prior data (status 0,
not a hard failure); otherwise it reads line by line, keeps exactly the
lines the seven-field `sscanf` parse accepts, silently skips the rest, and
stops once 1000 records have been loaded. -/
theorem C6_load_inventory :
    (∀ inv, load_inventory none inv = (inv, false)) ∧
    (∀ lines inv, load_inventory (some lines) inv
        = (⟨(lines.filterMap parse_line).take Max⟩, true)) := by
  refine ⟨fun inv => rfl, fun lines inv => ?_⟩
  simp only [load_inventory]
  rw [loadLoop_eq lines [] (by simp)]
  simp

/-- C8 counterexample: on a log of 101 lines, the code reads only the first
100 lines, so with n = 1 it prints the 100th line, not the final line of
the log as the claim states. -/
theorem C8_recent_changes_counterexample :
    display_recent_changes (some (List.replicate 100 ['a'] ++ [['b']])) 1 ≠
      lastLines 1 (List.replicate 100 ['a'] ++ [['b']]) := by
  decide

/-- C8 (amended): `display_recent_changes` reads the log into memory
bounded at 100 lines read and returns the last n lines of the portion
read — the first 100 lines of the log, which is the whole log whenever it
has at most 100 lines — or fewer if that portion is shorter than n lines,
in original chronological order; a missing log yields nothing. -/
theorem C8_recent_changes_amended (log : List (List Char)) (n : Int) :
    display_recent_changes (some log) n = lastLines n (log.take 100) ∧
    display_recent_changes none n = [] := by
  refine ⟨?_, rfl⟩
  simp only [display_recent_changes, lastLines]
  congr 1
  omega

/-- C9: each appended change-log line has the form
`[timestamp] ACTION: name (ID: id, Qty: qty, Price: price)` with the
timestamp formatted `YYYY-MM-DD HH:MM:SS`; an ADDED entry takes its fields
from the after snapshot, a DELETED entry from the before snapshot, and a
MODIFIED entry is the reduced line with only name and id. -/
theorem C9_log_inventory_change (t : Tm) (b a : Prod) (ob oa : Option Prod) :
    log_inventory_change Change.ADD_PRODUCT ob (some a) t
        = some (fullLogLine (formatTimestamp t) ("ADDED".toList) a) ∧
    log_inventory_change Change.DELETE_PRODUCT (some b) oa t
        = some (fullLogLine (formatTimestamp t) ("DELETED".toList) b) ∧
    log_inventory_change Change.MODIFY_PRODUCT (some b) (some a) t
        = some (shortLogLine (formatTimestamp t) ("MODIFIED".toList) a) ∧
    fullLogLine (formatTimestamp t) ("ADDED".toList) a
        = '[' :: formatTimestamp t ++ "] ADDED: ".toList ++ a.name ++
            " (ID: ".toList ++ a.id ++ ", Qty: ".toList ++ intChars a.quantity ++
            ", Price: ".toList ++ floatChars2 a.price ++ [')'] ∧
    shortLogLine (formatTimestamp t) ("MODIFIED".toList) a
        = '[' :: formatTimestamp t ++ "] MODIFIED: ".toList ++ a.name ++
            " (ID: ".toList ++ a.id ++ [')'] ∧
    formatTimestamp ⟨2026, 1, 2, 3, 4, 5⟩ = "2026-01-02 03:04:05".toList := by
  refine ⟨?_, ?_, rfl, ?_, ?_, by decide⟩
  · cases ob <;> rfl
  · cases oa <;> rfl
  · simp [fullLogLine]
  · simp [shortLogLine]

/-- C10: the id `generate_unique_id` returns differs from the id of every
product in the inventory, so a search for it reports "not found" and an
add using it can never fail with a duplicate-id error. -/
theorem C10_generated_id_fresh (inv : Invent) :
    (∀ p ∈ inv.products, p.id ≠ generate_unique_id inv) ∧
    search_product_by_id inv (generate_unique_id inv) = -1 ∧
    (∀ p : Prod, (add_product inv { p with id := generate_unique_id inv }).2
        ≠ AddResult.duplicateId) := by
  have hM0 : 0 ≤ inv.products.foldl maxIdStep 0 := by
    rw [foldl_maxIdStep_eq]
    exact le_foldl_max _ 0
  have hfresh : ∀ p ∈ inv.products, p.id ≠ generate_unique_id inv := by
    intro p hp heq
    have hhead : p.id.head? = some 'P' := by rw [heq]; rfl
    have hdrop : p.id.drop 1 = pad3 (inv.products.foldl maxIdStep 0 + 1).toNat := by
      rw [heq]; rfl
    have hle : atoi (p.id.drop 1) ≤ inv.products.foldl maxIdStep 0 := by
      rw [foldl_maxIdStep_eq]
      exact mem_le_foldl_max
        (List.mem_map.mpr ⟨p, List.mem_filter.mpr ⟨hp, by simp [hhead]⟩, rfl⟩) 0
    rw [hdrop, atoi_pad3] at hle
    omega
  refine ⟨hfresh, searchGo_eq_neg_one (fun q hq => hfresh q hq) 0, ?_⟩
  intro p
  by_cases hcap : Max ≤ inv.products.length
  · simp [add_product, hcap]
  · have hs : search_product_by_id inv (generate_unique_id inv) = -1 :=
      searchGo_eq_neg_one (fun q hq => hfresh q hq) 0
    simp [add_product, hcap, hs]

/-- Witness for C10: on a one-product inventory the generated id is not the
existing id and is not found by search. -/
theorem C10_generated_id_fresh_witness :
    pW.id ≠ generate_unique_id ⟨[pW]⟩ ∧
    search_product_by_id ⟨[pW]⟩ (generate_unique_id ⟨[pW]⟩) = -1 :=
  ⟨(C10_generated_id_fresh ⟨[pW]⟩).1 pW (List.mem_singleton.mpr rfl),
    (C10_generated_id_fresh ⟨[pW]⟩).2.1⟩

end Stock
